import Mathlib

/-!
Verification of the SurrealDB storage/vector adapter.

The definitions below are a shallow embedding of the adapter's source:
the identifier normalizer and message-limit resolver
(src/mastra/storage/shared/utils.ts), the metadata filter compiler,
vector upsert/query/delete (src/mastra/storage/vector.ts), and the
memory domain's message retrieval (src/mastra/storage/domains/memory.ts).
The backing store (SurrealDB) is an external collaborator; its reaction
to the queries the adapter issues is modelled by explicit `db*` functions,
each annotated with the query text it interprets.  Strings are manipulated
through their character lists so that every definition evaluates inside
the kernel.
-/

/-! ## Identifier normalizer (shared/utils.ts `normalizeId`)

The same function body appears three times in the repository (the shared
util, a private copy in `SurrealVector`, and a private copy in
`SurrealStore`); it is embedded once.  Record references reaching it are
either strings or SDK `RecordId` objects carrying a table part and a
value part.  The `null`/`undefined` guard (`if (!id) return id`) is outside
the record-reference domain and, for strings, coincides with the
no-colon fallthrough. -/

/-- A value returned by the store as a record reference: either a string
(`"table:value"`, possibly with delimiter decoration, or an already-plain
id) or a structured `RecordId` object with a table part and a value part. -/
inductive RecId where
  | str (s : String)
  | obj (tb : String) (idf : String)
deriving DecidableEq

/-- Embeds JavaScript `str.split(sep)` for a one-character separator,
on the character list. -/
def splitOnChar (c : Char) : List Char → List (List Char)
  | [] => [[]]
  | x :: xs =>
    match splitOnChar c xs with
    | [] => if x = c then [[], []] else [[x]]
    | h :: t => if x = c then [] :: h :: t else (x :: h) :: t

/-- Embeds `parts.join(':')` on character lists. -/
def joinWithChar (c : Char) : List (List Char) → List Char
  | [] => []
  | [l] => l
  | l :: rest => l ++ c :: joinWithChar c rest

/-- Embeds `idPart.replace(/^[⟨<]/, '')`: strip one leading angle bracket. -/
def stripLeadingBracket (l : List Char) : List Char :=
  match l with
  | [] => l
  | c :: rest => if c = '⟨' ∨ c = '<' then rest else l

/-- Embeds `idPart.replace(/[⟩>]$/, '')`: strip one trailing angle bracket. -/
def stripTrailingBracket (l : List Char) : List Char :=
  match l.getLast? with
  | none => l
  | some c => if c = '⟩' ∨ c = '>' then l.dropLast else l

/-- Embeds `str.includes(':')`. -/
def hasColon (s : String) : Bool :=
  s.data.contains ':'

/-- The string arm of `normalizeId`: if the string contains `':'`, keep
`parts.slice(1).join(':')` (everything after the first `':'`) and strip
the decorating brackets; otherwise return the string unchanged. -/
def normalizeIdString (s : String) : String :=
  if hasColon s then
    let parts := splitOnChar ':' s.data
    String.mk (stripTrailingBracket (stripLeadingBracket (joinWithChar ':' parts.tail)))
  else s

/-- Embeds `normalizeId` from shared/utils.ts.  An object with a truthy
`id` field returns `String(id.id)`; otherwise the value is stringified
(an SDK `RecordId` renders as `table:value`) and the string arm applies. -/
def normalizeId : RecId → String
  | .obj tb idf => if idf = "" then normalizeIdString (tb ++ ":" ++ idf) else idf
  | .str s => normalizeIdString s

/-! ## Filter compiler (vector.ts `SurrealVector.buildFilterClauses`)

A metadata filter is a flat JavaScript object; its entries are modelled
in declaration order.  Array elements are modelled as scalars (the
spec's declared element domain for membership filters). -/

/-- A scalar JavaScript value as it appears inside a filter array or a
stored metadata object. -/
inductive JsScalar where
  | nul
  | str (s : String)
  | num (n : Int)
  | bool (b : Bool)
deriving DecidableEq

/-- A JavaScript filter value: `nul` covers both `null` and `undefined`;
`obj` covers any other unsupported shape (e.g. a nested object), which
the compiler skips silently. -/
inductive JsVal where
  | nul
  | str (s : String)
  | num (n : Int)
  | bool (b : Bool)
  | arr (xs : List JsScalar)
  | obj
deriving DecidableEq

/-- Embeds the array-element formatting
`typeof v === 'string' ? `"${v}"` : v` followed by template
interpolation. -/
def formatArrayElem : JsScalar → String
  | .str v => "\"" ++ v ++ "\""
  | .num n => toString n
  | .bool b => if b then "true" else "false"
  | .nul => "null"

/-- One loop iteration of `buildFilterClauses`: skip `null`/`undefined`,
push an equality clause for a scalar, an `IN` clause for an array, and
fall through silently for any other shape. -/
def clauseStep (clauses : List String) (kv : String × JsVal) : List String :=
  match kv.2 with
  | .nul => clauses
  | .str v => clauses ++ ["metadata." ++ kv.1 ++ " = \"" ++ v ++ "\""]
  | .num n => clauses ++ ["metadata." ++ kv.1 ++ " = " ++ toString n]
  | .bool b => clauses ++ ["metadata." ++ kv.1 ++ " = " ++ (if b then "true" else "false")]
  | .arr xs =>
    clauses ++ ["metadata." ++ kv.1 ++ " IN [" ++
      String.intercalate ", " (xs.map formatArrayElem) ++ "]"]
  | .obj => clauses

/-- The clause list accumulated by the `for (const [key, value] of
Object.entries(filter))` loop. -/
def filterClauseList (filter : List (String × JsVal)) : List String :=
  filter.foldl clauseStep []

/-- Embeds `SurrealVector.buildFilterClauses`: the accumulated clauses
joined with `' AND '`. -/
def buildFilterClauses (filter : List (String × JsVal)) : String :=
  String.intercalate " AND " (filterClauseList filter)

/-- Per-entry clause, for stating that the loop produces one clause per
supported key: `none` exactly when the loop skips the entry. -/
def clauseOf (key : String) : JsVal → Option String
  | .nul => none
  | .str v => some ("metadata." ++ key ++ " = \"" ++ v ++ "\"")
  | .num n => some ("metadata." ++ key ++ " = " ++ toString n)
  | .bool b => some ("metadata." ++ key ++ " = " ++ (if b then "true" else "false"))
  | .arr xs =>
    some ("metadata." ++ key ++ " IN [" ++
      String.intercalate ", " (xs.map formatArrayElem) ++ "]")
  | .obj => none

/-- Field access `metadata.key` on a stored metadata object. -/
def metaGet (meta : List (String × JsScalar)) (key : String) : Option JsScalar :=
  (meta.find? (fun kv => kv.1 == key)).map (fun kv => kv.2)

/-- Environment model: how the store evaluates one compiled clause
against a record's metadata (equality for scalars, membership for `IN`;
entries the compiler skipped impose no condition). -/
def matchesEntry (meta : List (String × JsScalar)) (key : String) : JsVal → Bool
  | .nul => true
  | .str v => metaGet meta key == some (JsScalar.str v)
  | .num n => metaGet meta key == some (JsScalar.num n)
  | .bool b => metaGet meta key == some (JsScalar.bool b)
  | .arr xs =>
    match metaGet meta key with
    | some v => xs.contains v
    | none => false
  | .obj => true

/-- Environment model: the store evaluating the conjunction of all
compiled clauses of a filter. -/
def matchesFilter (filter : List (String × JsVal)) (meta : List (String × JsScalar)) : Bool :=
  filter.all (fun kv => matchesEntry meta kv.1 kv.2)

/-! ## Vector store (vector.ts `SurrealVector`)

A vector collection is the table `mastra_vector_<indexName>` together
with the dimension declared by `createIndex` (fixed in the HNSW index
definition).  The `createdAt`/`updatedAt` stamps (`time::now()`) are
environment clock values irrelevant to the claims and are omitted from
the row model. -/

/-- A record of a vector table: the unique-indexed `id`, the embedding,
the optional metadata object and the optional document.  `upsert` never
writes `document`; it stays whatever an earlier writer left. -/
structure VRow where
  id : String
  embedding : List ℚ
  metadata : Option (List (String × JsScalar))
  document : Option String
deriving DecidableEq

/-- Embeds `getTableName`. -/
def getTableName (indexName : String) : String :=
  "mastra_vector_" ++ indexName

/-- A collection: the dimension declared at `createIndex` time plus the
live rows. -/
structure VectorIndexState where
  dimension : Nat
  rows : List VRow
deriving DecidableEq

/-- The `metadata` argument of `upsert`: an array (one object per
record), a single object shared by all records, or absent. -/
inductive MetaArg where
  | arrayArg (ms : List (Option (List (String × JsScalar))))
  | singleArg (m : List (String × JsScalar))
  | undef

/-- Embeds `Array.isArray(metadata) ? metadata[i] : metadata`. -/
def resolveMeta : MetaArg → Nat → Option (List (String × JsScalar))
  | .arrayArg ms, i => (ms[i]?).getD none
  | .singleArg m, _ => some m
  | .undef, _ => none

/-- Embeds `ids?.[i] || crypto.randomUUID()`; `fresh` supplies the
generated UUIDs (one per position). -/
def resolveUpsertId (ids : Option (List String)) (i : Nat) (fresh : Nat → String) : String :=
  match ids with
  | some l =>
    match l[i]? with
    | some s => if s = "" then fresh i else s
    | none => fresh i
  | none => fresh i

/-- Environment model: the row-level effect of
`INSERT INTO t {...} ON DUPLICATE KEY UPDATE embedding = $embedding,
metadata = $metadata, ...` under the unique index on `id`: replace the
embedding/metadata of the row with the same `id`, or append a new row. -/
def upsertRow (rows : List VRow) (row : VRow) : List VRow :=
  if rows.any (fun r => r.id == row.id) then
    rows.map (fun r =>
      if r.id == row.id then { r with embedding := row.embedding, metadata := row.metadata }
      else r)
  else rows ++ [row]

/-- Environment model: the store executing one `INSERT` against a table
whose HNSW index was declared with `DIMENSION dim`; an embedding of any
other length is rejected by the store (the adapter itself performs no
validation). -/
def dbInsertVector (dim : Nat) (rows : List VRow) (row : VRow) : Except String (List VRow) :=
  if row.embedding.length = dim then Except.ok (upsertRow rows row)
  else Except.error "Incorrect vector dimension"

/-- The `for (let i = 0; i < vectors.length; i++)` loop of
`SurrealVector.upsert`: one store round trip per record, collecting the
ids; a store error aborts the loop, leaving the rows already written in
place. -/
def upsertLoop (dim : Nat) (rows : List VRow) (vectors : List (List ℚ)) (metadata : MetaArg)
    (ids : Option (List String)) (fresh : Nat → String) (i : Nat) (acc : List String) :
    List VRow × Except String (List String) :=
  match vectors with
  | [] => (rows, Except.ok acc)
  | v :: rest =>
    let id := resolveUpsertId ids i fresh
    let meta := resolveMeta metadata i
    match dbInsertVector dim rows { id := id, embedding := v, metadata := meta, document := none } with
    | Except.ok rows' => upsertLoop dim rows' rest metadata ids fresh (i + 1) (acc ++ [id])
    | Except.error e => (rows, Except.error e)

/-- Embeds `SurrealVector.upsert`: the final table state paired with the
returned ids (or the propagated store error). -/
def SurrealVector.upsert (st : VectorIndexState) (vectors : List (List ℚ)) (metadata : MetaArg)
    (ids : Option (List String)) (fresh : Nat → String) :
    VectorIndexState × Except String (List String) :=
  let r := upsertLoop st.dimension st.rows vectors metadata ids fresh 0 []
  (⟨st.dimension, r.1⟩, r.2)

/-- The argument object of `SurrealVector.query`; `topK` and
`includeVector` are optional with defaults 10 and false. -/
structure QueryParams where
  queryVector : List ℚ
  topK : Option Nat
  filter : Option (List (String × JsVal))
  includeVector : Option Bool

/-- A row as returned by the SELECT projection: `embedding` only when
projected, `distance` from `vector::distance::knn()`. -/
structure RawQueryRow where
  id : RecId
  embedding : Option (List ℚ)
  metadata : Option (List (String × JsScalar))
  document : Option String
  distance : Option ℚ

/-- The result shape `query` maps each raw row to. -/
structure QueryResult where
  id : String
  score : ℚ
  metadata : Option (List (String × JsScalar))
  vector : Option (List ℚ)
  document : Option String

/-- Ordering of rows by native distance to the query vector; `dist` is
the store's distance function for the collection's metric. -/
def distRel (dist : List ℚ → List ℚ → ℚ) (qv : List ℚ) (r s : VRow) : Prop :=
  dist r.embedding qv ≤ dist s.embedding qv

instance (dist : List ℚ → List ℚ → ℚ) (qv : List ℚ) : DecidableRel (distRel dist qv) :=
  fun r s => inferInstanceAs (Decidable (dist r.embedding qv ≤ dist s.embedding qv))

/-- Environment model: the rows produced by
`... WHERE embedding <|topK, 40|> $queryVector [AND clauses] ORDER BY
distance`.  The KNN operator is modelled as exact k-nearest selection
(the claims depend only on it yielding at most `topK` rows); the
conjoined metadata clauses then filter that candidate set, and `ORDER BY
distance` sorts what remains. -/
def queryOrderedRows (dist : List ℚ → List ℚ → ℚ) (table : List VRow) (p : QueryParams) :
    List VRow :=
  let k := p.topK.getD 10
  let candidates := (table.insertionSort (distRel dist p.queryVector)).take k
  let kept :=
    match p.filter with
    | some f =>
      if f.length > 0 then
        if buildFilterClauses f ≠ "" then
          candidates.filter (fun r : VRow => matchesFilter f (r.metadata.getD []))
        else candidates
      else candidates
    | none => candidates
  kept.insertionSort (distRel dist p.queryVector)

/-- The SELECT projection of one kept row: `embedding` only when
`includeVector`, `vector::distance::knn() AS distance` always present. -/
def selectRow (dist : List ℚ → List ℚ → ℚ) (qv : List ℚ) (includeVector : Bool)
    (tableName : String) (r : VRow) : RawQueryRow :=
  { id := RecId.obj tableName r.id,
    embedding := if includeVector then some r.embedding else none,
    metadata := r.metadata,
    document := r.document,
    distance := some (dist r.embedding qv) }

/-- Embeds the result-mapping arrow of `query`: normalize the id, score
`1 - distance` (0 if the distance were absent), attach the embedding only
when `includeVector`. -/
def rawToResult (includeVector : Bool) (row : RawQueryRow) : QueryResult :=
  { id := normalizeId row.id,
    score := match row.distance with
      | some d => 1 - d
      | none => 0,
    metadata := row.metadata,
    vector := if includeVector then row.embedding else none,
    document := row.document }

/-- Embeds `SurrealVector.query`. -/
def SurrealVector.query (dist : List ℚ → List ℚ → ℚ) (indexName : String) (table : List VRow)
    (p : QueryParams) : List QueryResult :=
  let includeVector := p.includeVector.getD false
  (queryOrderedRows dist table p).map (fun r =>
    rawToResult includeVector (selectRow dist p.queryVector includeVector (getTableName indexName) r))

/-- The `else if (filter)` branch of `deleteVectors`: issue a delete only
when the compiled clauses are non-empty; result is the new table plus the
issued statement, if any. -/
def deleteByFilterBranch (tableName : String) (table : List VRow)
    (filter : Option (List (String × JsVal))) : List VRow × Option String :=
  match filter with
  | some f =>
    let cls := buildFilterClauses f
    if cls ≠ "" then
      (table.filter (fun r => !(matchesFilter f (r.metadata.getD []))),
        some ("DELETE FROM " ++ tableName ++ " WHERE " ++ cls))
    else (table, none)
  | none => (table, none)

/-- Embeds `SurrealVector.deleteVectors`: ids take precedence when
non-empty (`ids && ids.length > 0`); otherwise the filter branch runs. -/
def SurrealVector.deleteVectors (indexName : String) (table : List VRow)
    (ids : Option (List String)) (filter : Option (List (String × JsVal))) :
    List VRow × Option String :=
  let tableName := getTableName indexName
  match ids with
  | some l =>
    if l.length > 0 then
      let idList := String.intercalate ", " (l.map (fun id => "\"" ++ id ++ "\""))
      (table.filter (fun r => !(l.contains r.id)),
        some ("DELETE FROM " ++ tableName ++ " WHERE id IN [" ++ idList ++ "]"))
    else deleteByFilterBranch tableName table filter
  | none => deleteByFilterBranch tableName table filter

/-! ## Memory domain (domains/memory.ts `MemorySurreal`)

Messages live in the `mastra_messages` table; the record key is the
plain message id the writer supplied, and rows come back with their id
as the `RecordId` object `⟨"mastra_messages", key⟩`, which `normalizeId`
maps back to the key.  `role`/`content`/`type` are opaque to every claim
and omitted; `createdAt` is a numeric timestamp (`ensureDate` is the
identity on it). -/

/-- A stored message row: record key, owning conversation, timestamp. -/
structure StoredMsg where
  key : String
  threadId : String
  createdAt : Nat
deriving DecidableEq, Inhabited

/-- `normalizeId(msg.id)` for a row returned by the store: the row's id
is the `RecordId` object for the `mastra_messages` table. -/
def msgNormId (m : StoredMsg) : String :=
  normalizeId (RecId.obj "mastra_messages" m.key)

/-- Chronological order on messages (`ORDER BY createdAt ASC`, and the
final JavaScript sort comparator `ta - tb`). -/
def msgLe (a b : StoredMsg) : Prop :=
  a.createdAt ≤ b.createdAt

instance : DecidableRel msgLe :=
  fun a b => inferInstanceAs (Decidable (a.createdAt ≤ b.createdAt))

instance : IsTotal StoredMsg msgLe :=
  ⟨fun a b => Nat.le_total a.createdAt b.createdAt⟩

instance : IsTrans StoredMsg msgLe :=
  ⟨fun _ _ _ hab hbc => Nat.le_trans hab hbc⟩

/-- Environment model:
`SELECT * FROM type::thing("mastra_messages", $id)` — the record with
that key, if any. -/
def dbGetMessage (db : List StoredMsg) (id : String) : Option StoredMsg :=
  db.find? (fun m => m.key == id)

/-- Environment model:
`SELECT * FROM type::thing("mastra_messages", $id) WHERE threadId =
$threadId LIMIT 1` — the record with that key, kept only if it belongs
to the stated conversation. -/
def dbGetMessageInThread (db : List StoredMsg) (id threadId : String) : Option StoredMsg :=
  (dbGetMessage db id).filter (fun m => m.threadId == threadId)

/-- Environment model:
`SELECT * FROM mastra_messages WHERE threadId = $threadId ORDER BY
createdAt ASC` — the conversation's messages in chronological order
(stable, like the store's sort). -/
def dbThreadMessages (db : List StoredMsg) (threadId : String) : List StoredMsg :=
  (db.filter (fun m => m.threadId == threadId)).insertionSort msgLe

/-- One element of `selectBy.include`: the anchor message id, its stated
conversation, and the requested window. -/
structure IncludeArg where
  id : String
  threadId : Option String
  withPreviousMessages : Option Nat
  withNextMessages : Option Nat
deriving DecidableEq

/-- The accumulator of `getMessagesWithContext`: the `allMessages` array
and the `seenIds` set (as the list of ids in insertion order). -/
abbrev CtxState := List StoredMsg × List String

/-- The guarded push used at every emission site:
`if (!seenIds.has(normalizeId(msg.id))) { seenIds.add(...); allMessages.push(...) }`. -/
def pushIfUnseen (st : CtxState) (m : StoredMsg) : CtxState :=
  if st.2.contains (msgNormId m) then st else (st.1 ++ [m], st.2 ++ [msgNormId m])

/-- Embeds JavaScript `Array.prototype.findIndex` (as an `Option`). -/
def findIndex (p : StoredMsg → Bool) : List StoredMsg → Option Nat
  | [] => none
  | m :: rest => if p m then some 0 else (findIndex p rest).map (· + 1)

/-- One iteration of the `for (const include of includes)` loop of
`MemorySurreal.getMessagesWithContext`: no stated conversation → fetch
the message directly; otherwise fetch it constrained to the stated
conversation (skip on miss), load the whole conversation, locate the
anchor (`normalizeId(m.id) === id || m.id === id`, the second disjunct
never holds for a `RecordId` against a string), and push the clipped
window `[max(0, p − before), min(n, p + after + 1))`. -/
def processInclude (db : List StoredMsg) (st : CtxState) (inc : IncludeArg) : CtxState :=
  match inc.threadId with
  | none =>
    match dbGetMessage db inc.id with
    | some msg => pushIfUnseen st msg
    | none => st
  | some t =>
    match dbGetMessageInThread db inc.id t with
    | none => st
    | some targetMsg =>
      let threadMessages := dbThreadMessages db t
      match findIndex (fun m => msgNormId m == inc.id) threadMessages with
      | none => pushIfUnseen st targetMsg
      | some targetIndex =>
        let b := inc.withPreviousMessages.getD 0
        let a := inc.withNextMessages.getD 0
        let startIndex := targetIndex - b
        let endIndex := min threadMessages.length (targetIndex + a + 1)
        (List.range' startIndex (endIndex - startIndex)).foldl
          (fun s i => pushIfUnseen s (threadMessages.getD i default)) st

/-- Embeds `MemorySurreal.getMessagesWithContext`: process every anchor
in input order, then sort the accumulated messages by `createdAt`. -/
def getMessagesWithContext (db : List StoredMsg) (includes : List IncludeArg) :
    List StoredMsg :=
  ((includes.foldl (processInclude db) ([], [])).1).insertionSort msgLe

/-- The `selectBy.last` argument: a number, `false`, or absent. -/
inductive LastArg where
  | num (n : Nat)
  | fls
  | undef
deriving DecidableEq

/-- Embeds `resolveMessageLimit` from shared/utils.ts:
`typeof last !== 'number'` falls back to the default. -/
def resolveMessageLimit (last : LastArg) (defaultLimit : Nat) : Nat :=
  match last with
  | .num n => n
  | _ => defaultLimit

/-- The `selectBy` argument of `getMessages`; an absent `include` is the
empty list. -/
structure SelectBy where
  last : LastArg
  includeList : List IncludeArg
deriving DecidableEq

/-- Embeds the optional access `selectBy?.last`. -/
def selectByLast : Option SelectBy → LastArg
  | some sb => sb.last
  | none => LastArg.undef

/-- Embeds the optional access `selectBy?.include` (absent = empty). -/
def selectByInclude : Option SelectBy → List IncludeArg
  | some sb => sb.includeList
  | none => []

/-- Embeds `MemorySurreal.getMessages`: resolve the limit (default 100),
dispatch to `getMessagesWithContext` when `selectBy.include` is
non-empty, otherwise run the plain
`SELECT ... WHERE threadId = $threadId ORDER BY createdAt ASC LIMIT
$limit`. -/
def MemorySurreal.getMessages (db : List StoredMsg) (threadId : String)
    (selectBy : Option SelectBy) : List StoredMsg :=
  let limit := resolveMessageLimit (selectByLast selectBy) 100
  let includes := selectByInclude selectBy
  if includes.length > 0 then getMessagesWithContext db includes
  else ((db.filter (fun m => m.threadId == threadId)).insertionSort msgLe).take limit

/-- C6 counterexample: `normalizeId` is not idempotent.  The in-domain
input `"t:⟨a:b⟩"` (a `table:value` string whose decorated value part
itself contains `':'`) normalizes to `"a:b"`, which re-normalizes to
`"b"`. -/
theorem normalizeId_not_idempotent_cex :
    normalizeId (RecId.str (normalizeId (RecId.str "t:⟨a:b⟩"))) ≠
      normalizeId (RecId.str "t:⟨a:b⟩") := by
  decide

/-- C6 (amended): `normalizeId` returns a plain string for every
record-reference input (it is total), and it is idempotent on every input
whose normalized form contains no `':'` — in particular on every record
reference whose value part is colon-free. -/
theorem normalizeId_idempotent_of_colon_free (id : RecId)
    (h : hasColon (normalizeId id) = false) :
    normalizeId (RecId.str (normalizeId id)) = normalizeId id := by
  show normalizeIdString (normalizeId id) = normalizeId id
  rw [normalizeIdString, h]
  simp

/-- Witness for C6 (amended) at a concrete structured record reference. -/
theorem normalizeId_idempotent_witness :
    hasColon (normalizeId (RecId.obj "mastra_threads" "abc")) = false ∧
    normalizeId (RecId.str (normalizeId (RecId.obj "mastra_threads" "abc"))) =
      normalizeId (RecId.obj "mastra_threads" "abc") :=
  ⟨by decide, normalizeId_idempotent_of_colon_free _ (by decide)⟩

/-- Each loop iteration appends exactly the per-entry clause (or nothing). -/
theorem clauseStep_eq (clauses : List String) (kv : String × JsVal) :
    clauseStep clauses kv = clauses ++ (clauseOf kv.1 kv.2).toList := by
  obtain ⟨k, v⟩ := kv
  cases v <;> simp [clauseStep, clauseOf]

/-- The clause loop from any accumulator produces the per-entry clauses in
entry order. -/
theorem foldl_clauseStep (f : List (String × JsVal)) :
    ∀ acc : List String,
      f.foldl clauseStep acc = acc ++ f.filterMap (fun kv => clauseOf kv.1 kv.2) := by
  induction f with
  | nil => intro acc; simp [List.foldl]
  | cons kv rest ih =>
    intro acc
    rw [List.foldl_cons, clauseStep_eq, ih, List.filterMap_cons]
    cases h : clauseOf kv.1 kv.2 <;> simp [h]

/-- C7: the filter compiler produces one clause per supported key, joined
with `' AND '`; `null`/`undefined` entries produce no clause; scalars
produce equality clauses and arrays produce `IN` clauses; a filter with
no remaining keys compiles to the empty string. -/
theorem buildFilterClauses_spec (f : List (String × JsVal)) :
    filterClauseList f = f.filterMap (fun kv => clauseOf kv.1 kv.2) ∧
    buildFilterClauses f =
      String.intercalate " AND " (f.filterMap (fun kv => clauseOf kv.1 kv.2)) ∧
    ((∀ kv ∈ f, clauseOf kv.1 kv.2 = none) → buildFilterClauses f = "") ∧
    (∀ k, clauseOf k JsVal.nul = none) ∧
    (∀ k s, clauseOf k (JsVal.str s) = some ("metadata." ++ k ++ " = \"" ++ s ++ "\"")) ∧
    (∀ k xs, clauseOf k (JsVal.arr xs) =
      some ("metadata." ++ k ++ " IN [" ++
        String.intercalate ", " (xs.map formatArrayElem) ++ "]")) := by
  have hlist : filterClauseList f = f.filterMap (fun kv => clauseOf kv.1 kv.2) := by
    rw [filterClauseList, foldl_clauseStep]; simp
  refine ⟨hlist, ?_, ?_, fun _ => rfl, fun _ _ => rfl, fun _ _ => rfl⟩
  · rw [buildFilterClauses, hlist]
  · intro hnone
    have : f.filterMap (fun kv => clauseOf kv.1 kv.2) = [] := by
      simp only [List.filterMap_eq_nil_iff]
      exact hnone
    rw [buildFilterClauses, hlist, this]
    rfl

/-- Witness for C7: a filter whose every entry is skipped compiles to the
empty string. -/
theorem buildFilterClauses_witness :
    buildFilterClauses [("a", JsVal.nul), ("b", JsVal.obj)] = "" :=
  (buildFilterClauses_spec [("a", JsVal.nul), ("b", JsVal.obj)]).2.2.1 (by decide)

/-- A helper empty-string fact shared by the filter-compiler and delete
theorems: a filter whose every entry is skipped compiles to the empty
string. -/
theorem buildFilterClauses_empty_of_skipped (f : List (String × JsVal))
    (h : ∀ kv ∈ f, clauseOf kv.1 kv.2 = none) : buildFilterClauses f = "" := by
  have hlist : filterClauseList f = f.filterMap (fun kv => clauseOf kv.1 kv.2) := by
    rw [filterClauseList, foldl_clauseStep]; simp
  have hnil : f.filterMap (fun kv => clauseOf kv.1 kv.2) = [] := by
    simp only [List.filterMap_eq_nil_iff]
    exact h
  rw [buildFilterClauses, hlist, hnil]
  rfl

/-- If every record of a prefix has the declared dimension and the next
record does not, the upsert loop applies the whole prefix and then stops
with the store's dimension error, keeping the prefix's writes. -/
theorem upsertLoop_error_after_good (dim : Nat) (bad : List ℚ) (rest : List (List ℚ))
    (metadata : MetaArg) (ids : Option (List String)) (fresh : Nat → String)
    (hb : bad.length ≠ dim) :
    ∀ (good : List (List ℚ)), (∀ v ∈ good, v.length = dim) →
      ∀ (rows : List VRow) (i : Nat) (acc : List String),
        upsertLoop dim rows (good ++ bad :: rest) metadata ids fresh i acc =
          ((upsertLoop dim rows good metadata ids fresh i acc).1,
            Except.error "Incorrect vector dimension") := by
  intro good
  induction good with
  | nil =>
    intro _ rows i acc
    simp [upsertLoop, dbInsertVector, hb]
  | cons v g ih =>
    intro hg rows i acc
    have hv : v.length = dim := hg v (by simp)
    simp only [List.cons_append, upsertLoop, dbInsertVector, hv, if_pos]
    exact ih (fun w hw => hg w (by simp [hw])) _ _ _

/-- C1 counterexample: upserting the batch `[[1,2,3],[1,2]]` into a
collection of dimension 3 fails (the store rejects the second record) but
the first record has been written — not an all-or-nothing rejection. -/
theorem upsert_partial_write_cex :
    (SurrealVector.upsert ⟨3, []⟩ [[1, 2, 3], [1, 2]] MetaArg.undef
        (some ["a", "b"]) (fun _ => "gen")).2 =
      Except.error "Incorrect vector dimension" ∧
    ((SurrealVector.upsert ⟨3, []⟩ [[1, 2, 3], [1, 2]] MetaArg.undef
        (some ["a", "b"]) (fun _ => "gen")).1).rows.map (fun r => r.id) = ["a"] := by
  constructor <;> rfl

/-- C1 (amended): `upsert` performs no dimension validation of its own
and writes records one store call at a time; when a record's embedding
length differs from the collection's dimension, the call fails with the
store's error, but every record before the offending one remains written
(partial write, not all-or-nothing, and no adapter-level
DimensionMismatch). -/
theorem upsert_no_dimension_check (st : VectorIndexState) (good : List (List ℚ))
    (bad : List ℚ) (rest : List (List ℚ)) (metadata : MetaArg)
    (ids : Option (List String)) (fresh : Nat → String)
    (hg : ∀ v ∈ good, v.length = st.dimension) (hb : bad.length ≠ st.dimension) :
    SurrealVector.upsert st (good ++ bad :: rest) metadata ids fresh =
      ((SurrealVector.upsert st good metadata ids fresh).1,
        Except.error "Incorrect vector dimension") := by
  unfold SurrealVector.upsert
  rw [upsertLoop_error_after_good st.dimension bad rest metadata ids fresh hb good hg]

/-- Witness for C1 (amended): dimension-2 collection, good record then a
length-1 record; the call errors with the good record still written. -/
theorem upsert_no_dimension_check_witness :
    SurrealVector.upsert ⟨2, []⟩ ([[1, 2]] ++ [5] :: []) MetaArg.undef
        (some ["x", "y"]) (fun _ => "g") =
      ((SurrealVector.upsert ⟨2, []⟩ [[1, 2]] MetaArg.undef
          (some ["x", "y"]) (fun _ => "g")).1,
        Except.error "Incorrect vector dimension") :=
  upsert_no_dimension_check ⟨2, []⟩ [[1, 2]] [5] [] MetaArg.undef
    (some ["x", "y"]) (fun _ => "g") (by decide) (by decide)

/-- The rows kept by a vector query are at most `topK` (default 10). -/
theorem queryOrderedRows_length_le (dist : List ℚ → List ℚ → ℚ) (table : List VRow)
    (p : QueryParams) :
    (queryOrderedRows dist table p).length ≤ p.topK.getD 10 := by
  rw [queryOrderedRows]
  have hcand : ((table.insertionSort (distRel dist p.queryVector)).take
      (p.topK.getD 10)).length ≤ p.topK.getD 10 := by
    rw [List.length_take]
    exact min_le_left _ _
  cases hf : p.filter with
  | none =>
    dsimp only
    exact ((List.perm_insertionSort (distRel dist p.queryVector) _).length_eq).le.trans hcand
  | some f =>
    dsimp only
    split_ifs with h1 h2
    · refine ((List.perm_insertionSort (distRel dist p.queryVector) _).length_eq).le.trans ?_
      exact (List.length_filter_le _ _).trans hcand
    · exact ((List.perm_insertionSort (distRel dist p.queryVector) _).length_eq).le.trans hcand
    · exact ((List.perm_insertionSort (distRel dist p.queryVector) _).length_eq).le.trans hcand

/-- The rows kept by a vector query come out ordered by ascending native
distance (`ORDER BY distance`). -/
theorem queryOrderedRows_sorted (dist : List ℚ → List ℚ → ℚ) (table : List VRow)
    (p : QueryParams) :
    List.Sorted (distRel dist p.queryVector) (queryOrderedRows dist table p) := by
  haveI : IsTotal VRow (distRel dist p.queryVector) :=
    ⟨fun a b => le_total (dist a.embedding p.queryVector) (dist b.embedding p.queryVector)⟩
  haveI : IsTrans VRow (distRel dist p.queryVector) :=
    ⟨fun _ _ _ hab hbc => le_trans hab hbc⟩
  rw [queryOrderedRows]
  exact List.sorted_insertionSort _ _

/-- C5: a vector query returns at most `topK` results (default 10),
ordered by descending similarity (ascending native distance); each
result's score is `1 -` the native distance the store reported for its
row; and the stored embedding is attached to a result exactly when
`includeVector` is true (default false: embedding omitted). -/
theorem query_spec (dist : List ℚ → List ℚ → ℚ) (indexName : String) (table : List VRow)
    (p : QueryParams) :
    (SurrealVector.query dist indexName table p).length ≤ p.topK.getD 10 ∧
    (SurrealVector.query dist indexName table p).Pairwise
      (fun x y => y.score ≤ x.score) ∧
    (SurrealVector.query dist indexName table p).map (fun x => x.score) =
      (queryOrderedRows dist table p).map (fun r => 1 - dist r.embedding p.queryVector) ∧
    (SurrealVector.query dist indexName table p).map (fun x => x.vector) =
      (queryOrderedRows dist table p).map
        (fun r => if p.includeVector.getD false then some r.embedding else none) := by
  refine ⟨?_, ?_, ?_, ?_⟩
  · rw [SurrealVector.query]
    simpa using queryOrderedRows_length_le dist table p
  · rw [SurrealVector.query]
    simp only [List.pairwise_map]
    refine (queryOrderedRows_sorted dist table p).imp ?_
    intro a b hab
    show (1 : ℚ) - dist b.embedding p.queryVector ≤ 1 - dist a.embedding p.queryVector
    exact sub_le_sub_left hab 1
  · rw [SurrealVector.query, List.map_map]
    exact List.map_congr_left fun r _ => rfl
  · rw [SurrealVector.query, List.map_map]
    refine List.map_congr_left fun r _ => ?_
    simp only [Function.comp, rawToResult, selectRow]
    cases p.includeVector.getD false <;> simp

/-- C10: `deleteVectors` with a non-empty id list deletes exactly those
ids and ignores any supplied filter; with no ids (absent or empty) and a
filter whose every entry is skipped — or no filter at all — it issues no
delete statement and leaves the table unchanged. -/
theorem deleteVectors_spec (indexName : String) (table : List VRow) :
    (∀ (l : List String) (f f' : Option (List (String × JsVal))), l ≠ [] →
      SurrealVector.deleteVectors indexName table (some l) f =
        SurrealVector.deleteVectors indexName table (some l) f') ∧
    (∀ (l : List String) (f : Option (List (String × JsVal))), l ≠ [] →
      (SurrealVector.deleteVectors indexName table (some l) f).1 =
        table.filter (fun r => !(l.contains r.id))) ∧
    (∀ f : List (String × JsVal), (∀ kv ∈ f, clauseOf kv.1 kv.2 = none) →
      SurrealVector.deleteVectors indexName table none (some f) = (table, none) ∧
      SurrealVector.deleteVectors indexName table (some []) (some f) = (table, none)) ∧
    SurrealVector.deleteVectors indexName table none none = (table, none) := by
  refine ⟨?_, ?_, ?_, rfl⟩
  · intro l f f' hl
    have hpos : l.length > 0 := List.length_pos.mpr hl
    simp [SurrealVector.deleteVectors, hpos]
  · intro l f hl
    have hpos : l.length > 0 := List.length_pos.mpr hl
    simp [SurrealVector.deleteVectors, hpos]
  · intro f hf
    have hempty : buildFilterClauses f = "" := buildFilterClauses_empty_of_skipped f hf
    exact ⟨by simp [SurrealVector.deleteVectors, deleteByFilterBranch, hempty],
      by simp [SurrealVector.deleteVectors, deleteByFilterBranch, hempty]⟩

/-- Witness for C10: a concrete call per branch of the claim. -/
theorem deleteVectors_witness :
    SurrealVector.deleteVectors "docs" [] (some ["a"]) (some [("k", JsVal.nul)]) =
      SurrealVector.deleteVectors "docs" [] (some ["a"]) none ∧
    SurrealVector.deleteVectors "docs" [] none (some [("k", JsVal.nul)]) = ([], none) :=
  ⟨(deleteVectors_spec "docs" []).1 ["a"] (some [("k", JsVal.nul)]) none (by decide),
    ((deleteVectors_spec "docs" []).2.2.1 [("k", JsVal.nul)] (by decide)).1⟩

/-- A returned row's normalized id is its record key. -/
theorem msgNormId_eq_key (m : StoredMsg) : msgNormId m = m.key := by
  by_cases h : m.key = ""
  · simp only [msgNormId]
    rw [h]
    decide
  · simp [msgNormId, normalizeId, h]

/-- `findIndex` only returns positions inside the list. -/
theorem findIndex_lt_length {pr : StoredMsg → Bool} :
    ∀ {l : List StoredMsg} {i : Nat}, findIndex pr l = some i → i < l.length := by
  intro l
  induction l with
  | nil => intro i h; simp [findIndex] at h
  | cons m rest ih =>
    intro i h
    rw [findIndex] at h
    split at h
    · cases h; simp
    · cases hr : findIndex pr rest with
      | none => rw [hr] at h; simp at h
      | some j =>
        rw [hr] at h
        have hji : j + 1 = i := by simpa using h
        have hj := ih hr
        simp only [List.length_cons]
        omega

/-- The seen-set always holds exactly the normalized ids of the pushed
messages, without duplicates. -/
def ctxInv (st : CtxState) : Prop :=
  st.2 = st.1.map msgNormId ∧ st.2.Nodup

/-- `pushIfUnseen` preserves the seen-set invariant. -/
theorem ctxInv_push {st : CtxState} (h : ctxInv st) (m : StoredMsg) :
    ctxInv (pushIfUnseen st m) := by
  obtain ⟨hmap, hnd⟩ := h
  rw [pushIfUnseen]
  split
  · exact ⟨hmap, hnd⟩
  · next hc =>
    have hnotin : msgNormId m ∉ st.2 := by
      intro hmem
      exact hc (by simpa [List.contains] using hmem)
    refine ⟨by simp [hmap], ?_⟩
    simp [List.nodup_append, hnd, hnotin]

/-- Folding `pushIfUnseen` over any source of messages preserves the
invariant. -/
theorem ctxInv_foldl_push {β : Type} (g : β → StoredMsg) (xs : List β) :
    ∀ st, ctxInv st → ctxInv (xs.foldl (fun s x => pushIfUnseen s (g x)) st) := by
  induction xs with
  | nil => intro st h; exact h
  | cons x rest ih => intro st h; exact ih _ (ctxInv_push h (g x))

/-- Every branch of the anchor loop preserves the invariant. -/
theorem ctxInv_processInclude (db : List StoredMsg) (inc : IncludeArg) :
    ∀ st, ctxInv st → ctxInv (processInclude db st inc) := by
  intro st h
  cases hti : inc.threadId with
  | none =>
    cases hg : dbGetMessage db inc.id with
    | none => simpa only [processInclude, hti, hg] using h
    | some msg => simpa only [processInclude, hti, hg] using ctxInv_push h msg
  | some t =>
    cases hg : dbGetMessageInThread db inc.id t with
    | none => simpa only [processInclude, hti, hg] using h
    | some target =>
      cases hidx : findIndex (fun m => msgNormId m == inc.id) (dbThreadMessages db t) with
      | none => simpa only [processInclude, hti, hg, hidx] using ctxInv_push h target
      | some p =>
        simpa only [processInclude, hti, hg, hidx] using
          ctxInv_foldl_push (fun i => (dbThreadMessages db t).getD i default)
            (List.range' (p - inc.withPreviousMessages.getD 0)
              (min (dbThreadMessages db t).length (p + inc.withNextMessages.getD 0 + 1) -
                (p - inc.withPreviousMessages.getD 0))) st h

/-- The whole anchor loop preserves the invariant. -/
theorem ctxInv_foldl_includes (db : List StoredMsg) (includes : List IncludeArg) :
    ∀ st, ctxInv st → ctxInv (includes.foldl (processInclude db) st) := by
  induction includes with
  | nil => intro st h; exact h
  | cons inc rest ih => intro st h; exact ih _ (ctxInv_processInclude db inc st h)

/-- The index-driven window loop is the fold of `pushIfUnseen` over the
corresponding slice of the conversation. -/
theorem foldl_range'_getD (l : List StoredMsg) :
    ∀ (len start : Nat), start + len ≤ l.length → ∀ st : CtxState,
      (List.range' start len).foldl (fun s i => pushIfUnseen s (l.getD i default)) st =
        ((l.drop start).take len).foldl pushIfUnseen st := by
  intro len
  induction len with
  | zero => intro start _ st; simp
  | succ n ih =>
    intro start hle st
    have hstart : start < l.length := by omega
    rw [List.range'_succ, List.foldl_cons,
      List.drop_eq_getElem_cons hstart, List.take_succ_cons, List.foldl_cons]
    have hgetD : l.getD start default = l[start] := by
      simp [List.getD_eq_getElem?_getD, List.getElem?_eq_getElem hstart]
    rw [hgetD, ih (start + 1) (by omega)]

/-- Folding `pushIfUnseen` over messages none of which were seen, with
distinct ids, appends them all. -/
theorem foldl_push_fresh :
    ∀ (ms : List StoredMsg) (all : List StoredMsg) (seen : List String),
      (∀ m ∈ ms, msgNormId m ∉ seen) → (ms.map msgNormId).Nodup →
      ms.foldl pushIfUnseen (all, seen) = (all ++ ms, seen ++ ms.map msgNormId) := by
  intro ms
  induction ms with
  | nil => intro all seen _ _; simp
  | cons m rest ih =>
    intro all seen hnotin hnd
    have hm : msgNormId m ∉ seen := hnotin m (by simp)
    have hnd0 := hnd
    simp only [List.map_cons, List.nodup_cons] at hnd0
    have hpush : pushIfUnseen (all, seen) m = (all ++ [m], seen ++ [msgNormId m]) := by
      rw [pushIfUnseen, if_neg]
      simpa [List.contains] using hm
    rw [List.foldl_cons, hpush, ih (all ++ [m]) (seen ++ [msgNormId m]) ?fresh hnd0.2]
    · simp
    · intro x hx
      have hxs : msgNormId x ∉ seen := hnotin x (by simp [hx])
      have hxm : msgNormId x ≠ msgNormId m := by
        intro he
        exact hnd0.1 (he ▸ List.mem_map_of_mem msgNormId hx)
      simp [hxs, hxm]

/-- C4: a context-retrieval call (`getMessages` with non-empty
`selectBy.include`) returns each message id at most once — dedup is
global across all anchors, including overlapping windows — and the list
is sorted by `createdAt` ascending. -/
theorem include_dedup_sorted (db : List StoredMsg) (tid : String) (sb : SelectBy)
    (h : sb.includeList.length > 0) :
    ((MemorySurreal.getMessages db tid (some sb)).map msgNormId).Nodup ∧
    (MemorySurreal.getMessages db tid (some sb)).Pairwise msgLe := by
  have hres : MemorySurreal.getMessages db tid (some sb) =
      getMessagesWithContext db sb.includeList := by
    rw [MemorySurreal.getMessages]
    simp [selectByInclude, h]
  have hinv : ctxInv (sb.includeList.foldl (processInclude db) ([], [])) :=
    ctxInv_foldl_includes db sb.includeList ([], []) ⟨rfl, List.nodup_nil⟩
  have hnodup : ((sb.includeList.foldl (processInclude db) ([], [])).1.map msgNormId).Nodup :=
    hinv.1 ▸ hinv.2
  rw [hres, getMessagesWithContext]
  constructor
  · have hperm :=
      (List.perm_insertionSort msgLe
        (sb.includeList.foldl (processInclude db) ([], [])).1).map msgNormId
    exact hperm.nodup_iff.mpr hnodup
  · exact List.sorted_insertionSort msgLe _

/-- Witness for C4: two anchors with overlapping windows in a 3-message
conversation still yield distinct ids in chronological order. -/
theorem include_dedup_sorted_witness :
    ((MemorySurreal.getMessages
        [⟨"m0", "T", 0⟩, ⟨"m1", "T", 1⟩, ⟨"m2", "T", 2⟩] "T"
        (some ⟨LastArg.undef,
          [⟨"m0", some "T", some 0, some 2⟩, ⟨"m1", some "T", some 1, some 1⟩]⟩)).map
      msgNormId).Nodup ∧
    (MemorySurreal.getMessages
        [⟨"m0", "T", 0⟩, ⟨"m1", "T", 1⟩, ⟨"m2", "T", 2⟩] "T"
        (some ⟨LastArg.undef,
          [⟨"m0", some "T", some 0, some 2⟩, ⟨"m1", some "T", some 1, some 1⟩]⟩)).Pairwise
      msgLe :=
  include_dedup_sorted _ "T" _ (by decide)

/-- C3: an anchor whose stated conversation differs from the referenced
message's stored `threadId` is treated as not found: it leaves the
accumulated state untouched, contributing zero messages. -/
theorem cross_conversation_isolation (db : List StoredMsg) (st : CtxState)
    (inc : IncludeArg) (t : String) (m : StoredMsg)
    (ht : inc.threadId = some t)
    (hfind : dbGetMessage db inc.id = some m)
    (hmismatch : m.threadId ≠ t) :
    processInclude db st inc = st := by
  have hnone : dbGetMessageInThread db inc.id t = none := by
    rw [dbGetMessageInThread, hfind]
    simp [Option.filter, hmismatch]
  simp only [processInclude, ht, hnone]

/-- Witness for C3: the anchor states conversation "B" but the message
belongs to "A"; nothing is contributed. -/
theorem cross_conversation_isolation_witness :
    processInclude [⟨"m1", "A", 0⟩] ([], []) ⟨"m1", some "B", some 2, some 2⟩ = ([], []) :=
  cross_conversation_isolation [⟨"m1", "A", 0⟩] ([], [])
    ⟨"m1", some "B", some 2, some 2⟩ "B" ⟨"m1", "A", 0⟩ rfl (by decide) (by decide)

/-- An anchor that resolves to no message (missing message, or missing /
mismatched conversation) leaves the accumulator unchanged. -/
theorem processInclude_missing (db : List StoredMsg) (inc : IncludeArg)
    (h : (inc.threadId = none ∧ dbGetMessage db inc.id = none) ∨
         (∃ t, inc.threadId = some t ∧ dbGetMessageInThread db inc.id t = none)) :
    ∀ st : CtxState, processInclude db st inc = st := by
  intro st
  rcases h with ⟨h1, h2⟩ | ⟨t, h1, h2⟩ <;> simp only [processInclude, h1, h2]

/-- C8: a missing anchor message or missing conversation never causes an
error — the anchor is silently skipped and every remaining anchor is
still processed, so the call returns exactly what the other anchors
gathered. -/
theorem missing_anchor_skipped (db : List StoredMsg) (inc : IncludeArg)
    (h : (inc.threadId = none ∧ dbGetMessage db inc.id = none) ∨
         (∃ t, inc.threadId = some t ∧ dbGetMessageInThread db inc.id t = none)) :
    ∀ pre post : List IncludeArg,
      getMessagesWithContext db (pre ++ inc :: post) =
        getMessagesWithContext db (pre ++ post) := by
  intro pre post
  rw [getMessagesWithContext, getMessagesWithContext, List.foldl_append,
    List.foldl_append, List.foldl_cons, processInclude_missing db inc h]

/-- Witness for C8: a stale anchor (`"gone"`) between two live anchors
changes nothing. -/
theorem missing_anchor_skipped_witness :
    getMessagesWithContext [⟨"m0", "T", 0⟩, ⟨"m1", "T", 1⟩]
        ([⟨"m0", some "T", some 0, some 0⟩] ++
          ⟨"gone", some "T", some 1, some 1⟩ :: [⟨"m1", some "T", some 0, some 0⟩]) =
      getMessagesWithContext [⟨"m0", "T", 0⟩, ⟨"m1", "T", 1⟩]
        ([⟨"m0", some "T", some 0, some 0⟩] ++ [⟨"m1", some "T", some 0, some 0⟩]) :=
  missing_anchor_skipped [⟨"m0", "T", 0⟩, ⟨"m1", "T", 1⟩]
    ⟨"gone", some "T", some 1, some 1⟩
    (Or.inr ⟨"T", rfl, by decide⟩)
    [⟨"m0", some "T", some 0, some 0⟩] [⟨"m1", some "T", some 0, some 0⟩]

/-- C9: without `selectBy.include`, the store is asked for at most
`resolveMessageLimit` messages: exactly `n` when `selectBy.last = n`
(including 0), and the silent default 100 when `last` is `false` or
absent — so a plain get-by-conversation never returns more than the
resolved limit, in particular never more than 100 by default. -/
theorem plain_get_limit (db : List StoredMsg) (tid : String) (sb : Option SelectBy)
    (h : selectByInclude sb = []) :
    (MemorySurreal.getMessages db tid sb).length ≤
      resolveMessageLimit (selectByLast sb) 100 ∧
    (∀ n, resolveMessageLimit (LastArg.num n) 100 = n) ∧
    resolveMessageLimit LastArg.fls 100 = 100 ∧
    resolveMessageLimit LastArg.undef 100 = 100 := by
  refine ⟨?_, fun _ => rfl, rfl, rfl⟩
  rw [MemorySurreal.getMessages]
  simp only [h, List.length_nil, gt_iff_lt, Nat.lt_irrefl, if_false]
  rw [List.length_take]
  exact min_le_left _ _

/-- Witness for C9 at `selectBy = none`. -/
theorem plain_get_limit_witness :
    (MemorySurreal.getMessages [⟨"m0", "T", 0⟩] "T" none).length ≤
      resolveMessageLimit (selectByLast none) 100 ∧
    (∀ n, resolveMessageLimit (LastArg.num n) 100 = n) ∧
    resolveMessageLimit LastArg.fls 100 = 100 ∧
    resolveMessageLimit LastArg.undef 100 = 100 :=
  plain_get_limit [⟨"m0", "T", 0⟩] "T" none rfl

/-- C2: for an anchor found at position `p` (by `createdAt` ascending) in
a conversation of `n` messages, the window loop contributes exactly the
slice `[max(0, p − before), min(n − 1, p + after)]` — written as
`drop (p − before)` then `take` — of size
`min(before, p) + 1 + min(after, n − 1 − p)`, never indexing outside the
conversation. -/
theorem contextWindow_clipping (db : List StoredMsg) (inc : IncludeArg) (t : String)
    (target : StoredMsg) (p : Nat)
    (ht : inc.threadId = some t)
    (hfound : dbGetMessageInThread db inc.id t = some target)
    (hidx : findIndex (fun m => msgNormId m == inc.id) (dbThreadMessages db t) = some p)
    (hnd : ((dbThreadMessages db t).map msgNormId).Nodup) :
    (processInclude db ([], []) inc).1 =
      ((dbThreadMessages db t).drop (p - inc.withPreviousMessages.getD 0)).take
        (min (inc.withPreviousMessages.getD 0) p + 1 +
          min (inc.withNextMessages.getD 0) ((dbThreadMessages db t).length - 1 - p)) ∧
    (processInclude db ([], []) inc).1.length =
      min (inc.withPreviousMessages.getD 0) p + 1 +
        min (inc.withNextMessages.getD 0) ((dbThreadMessages db t).length - 1 - p) := by
  have hplt : p < (dbThreadMessages db t).length := findIndex_lt_length hidx
  have hcount : min (dbThreadMessages db t).length (p + inc.withNextMessages.getD 0 + 1) -
      (p - inc.withPreviousMessages.getD 0) =
      min (inc.withPreviousMessages.getD 0) p + 1 +
        min (inc.withNextMessages.getD 0) ((dbThreadMessages db t).length - 1 - p) := by
    omega
  have hnd_slice :
      ((((dbThreadMessages db t).drop (p - inc.withPreviousMessages.getD 0)).take
          (min (dbThreadMessages db t).length (p + inc.withNextMessages.getD 0 + 1) -
            (p - inc.withPreviousMessages.getD 0))).map msgNormId).Nodup := by
    refine hnd.sublist ?_
    exact ((List.take_sublist _ _).trans (List.drop_sublist _ _)).map msgNormId
  have hmain : processInclude db ([], []) inc =
      ([] ++ ((dbThreadMessages db t).drop (p - inc.withPreviousMessages.getD 0)).take
          (min (dbThreadMessages db t).length (p + inc.withNextMessages.getD 0 + 1) -
            (p - inc.withPreviousMessages.getD 0)),
        [] ++ (((dbThreadMessages db t).drop (p - inc.withPreviousMessages.getD 0)).take
          (min (dbThreadMessages db t).length (p + inc.withNextMessages.getD 0 + 1) -
            (p - inc.withPreviousMessages.getD 0))).map msgNormId) := by
    calc processInclude db ([], []) inc
        = (List.range' (p - inc.withPreviousMessages.getD 0)
            (min (dbThreadMessages db t).length (p + inc.withNextMessages.getD 0 + 1) -
              (p - inc.withPreviousMessages.getD 0))).foldl
            (fun s i => pushIfUnseen s ((dbThreadMessages db t).getD i default)) ([], []) := by
          simp only [processInclude, ht, hfound, hidx]
      _ = (((dbThreadMessages db t).drop (p - inc.withPreviousMessages.getD 0)).take
            (min (dbThreadMessages db t).length (p + inc.withNextMessages.getD 0 + 1) -
              (p - inc.withPreviousMessages.getD 0))).foldl pushIfUnseen ([], []) :=
          foldl_range'_getD (dbThreadMessages db t) _ _ (by omega) ([], [])
      _ = _ := foldl_push_fresh _ [] [] (by simp) hnd_slice
  rw [hmain]
  constructor
  · simp only [List.nil_append]
    rw [hcount]
  · simp only [List.nil_append]
    rw [List.length_take, List.length_drop]
    omega

/-- Witness for C2 at the spec's worked example: conversation `T` with
five messages, anchor `m2`, `before = 1`, `after = 2` — four messages,
the slice `[m1, m2, m3, m4]`. -/
theorem contextWindow_clipping_witness :
    (processInclude [⟨"m0", "T", 0⟩, ⟨"m1", "T", 1⟩, ⟨"m2", "T", 2⟩, ⟨"m3", "T", 3⟩,
        ⟨"m4", "T", 4⟩] ([], []) ⟨"m2", some "T", some 1, some 2⟩).1 =
      ((dbThreadMessages [⟨"m0", "T", 0⟩, ⟨"m1", "T", 1⟩, ⟨"m2", "T", 2⟩, ⟨"m3", "T", 3⟩,
          ⟨"m4", "T", 4⟩] "T").drop (2 - (1 : Nat)) ).take
        (min 1 2 + 1 +
          min 2 ((dbThreadMessages [⟨"m0", "T", 0⟩, ⟨"m1", "T", 1⟩, ⟨"m2", "T", 2⟩,
            ⟨"m3", "T", 3⟩, ⟨"m4", "T", 4⟩] "T").length - 1 - 2)) ∧
    (processInclude [⟨"m0", "T", 0⟩, ⟨"m1", "T", 1⟩, ⟨"m2", "T", 2⟩, ⟨"m3", "T", 3⟩,
        ⟨"m4", "T", 4⟩] ([], []) ⟨"m2", some "T", some 1, some 2⟩).1.length =
      min 1 2 + 1 +
        min 2 ((dbThreadMessages [⟨"m0", "T", 0⟩, ⟨"m1", "T", 1⟩, ⟨"m2", "T", 2⟩,
          ⟨"m3", "T", 3⟩, ⟨"m4", "T", 4⟩] "T").length - 1 - 2) :=
  contextWindow_clipping
    [⟨"m0", "T", 0⟩, ⟨"m1", "T", 1⟩, ⟨"m2", "T", 2⟩, ⟨"m3", "T", 3⟩, ⟨"m4", "T", 4⟩]
    ⟨"m2", some "T", some 1, some 2⟩ "T" ⟨"m2", "T", 2⟩ 2 rfl (by decide) (by decide)
    (by decide)
